import Mathlib

set_option maxRecDepth 1000000

/-!
A shallow embedding of the `morse` CLI (archer884/morse): the code tables,
the byte encoder, the two single-code decoders (associative map and flat
arithmetic-offset array), and the message-level transcoder.  Rust strings
are embedded as `List Char` (all inputs of interest are ASCII, where Rust's
byte iteration coincides with character iteration), bytes as `Nat`, and the
fallible functions return `Except Error`; the one place the Rust code could
panic (unchecked slice indexing in `encode_byte`) is modelled by an outer
`Option`, `none` meaning a panic.
-/

namespace Morse

/-- The 36 Morse codes, indices 0-25 for A-Z and 26-35 for 0-9
(`data::ENCODED_SEQUENCES` in both `src/main.rs` and `benches/decode.rs`). -/
def ENCODED_SEQUENCES : List (List Char) :=
  [".-", "-...", "-.-.", "-..", ".", "..-.", "--.", "....", "..", ".---",
   "-.-", ".-..", "--", "-.", "---", ".--.", "--.-", ".-.", "...", "-", "..-",
   "...-", ".--", "-..-", "-.--", "--..", "-----", ".----", "..---", "...--",
   "....-", ".....", "-....", "--...", "---..", "----."].map String.toList

/-- The 125-entry flat decoding table of `src/main.rs` (`data::DECODING_ARRAY`),
entries given as ASCII byte values. -/
def DECODING_ARRAY : List (Option Nat) :=
  [some 48, none, none, none, some 57, none, some 79, none, none, none, none,
   none, some 56, none, some 77, none, none, none, some 81, none, none, none,
   some 71, none, none, none, some 90, none, some 55, none, some 84, none,
   none, none, some 89, none, none, none, some 75, none, none, none, some 67,
   none, none, none, some 78, none, none, none, some 88, none, none, none,
   some 68, none, none, none, some 66, none, some 54, none, none, none,
   some 49, none, some 74, none, none, none, some 87, none, none, none,
   some 80, none, none, none, some 65, none, none, none, none, none, none,
   none, some 82, none, none, none, some 76, none, none, none, some 69, none,
   some 50, none, none, none, none, none, some 85, none, none, none, some 70,
   none, none, none, some 73, none, some 51, none, some 86, none, none, none,
   some 83, none, some 52, none, some 72, none, some 53]

/-- The error type of `src/main.rs` (the `Io` variant is out of scope):
`Encode` carries the offending character, `Decode` the offending token. -/
inductive Error : Type where
  | Encode : Char → Error
  | Decode : List Char → Error
deriving DecidableEq

/-- Rust `u8::is_ascii_alphabetic` on a byte value. -/
def isAsciiAlphabetic (u : Nat) : Bool :=
  (65 ≤ u && u ≤ 90) || (97 ≤ u && u ≤ 122)

/-- Rust `u8::is_ascii_digit` / the `NUMERIC_RANGE` check `b'0'..=b'9'`. -/
def isAsciiDigit (u : Nat) : Bool :=
  48 ≤ u && u ≤ 57

/-- Rust `u8::is_ascii_alphanumeric`. -/
def isAsciiAlphanumeric (u : Nat) : Bool :=
  isAsciiAlphabetic u || isAsciiDigit u

/-- Rust `u8::to_ascii_uppercase` on a byte value. -/
def toAsciiUppercase (u : Nat) : Nat :=
  if 97 ≤ u && u ≤ 122 then u - 32 else u

/-- The `encode_byte` function of `src/main.rs`.  The Rust code indexes
`ENCODED_SEQUENCES` without a bounds check, which would panic when out of
range; that is modelled by the outer `Option` (`none` = panic). -/
def encode_byte (u : Nat) : Option (Except Error (List Char)) :=
  if isAsciiAlphabetic u then
    (ENCODED_SEQUENCES.get? (toAsciiUppercase u - 65)).map Except.ok
  else if isAsciiDigit u then
    (ENCODED_SEQUENCES.get? (u - 48 + 26)).map Except.ok
  else
    some (Except.error (Error.Encode (Char.ofNat u)))

/-- The fold inside `uncorrected_offset` of `src/main.rs`: a dot adds the
current increment, a dash subtracts it, any other byte leaves the offset
unchanged; the increment halves after every byte. -/
def uoGo : List Char → Int → Int → Int
  | [], offset, _ => offset
  | u :: rest, offset, increment =>
      uoGo rest
        (if u = '.' then offset + increment
         else if u = '-' then offset - increment
         else offset)
        (increment / 2)

/-- The `uncorrected_offset` function of `src/main.rs`: fold starting from
offset 0 with increment 32. -/
def uncorrected_offset (character : List Char) : Int :=
  uoGo character 0 32

/-- The lookup `DECODING_ARRAY.get(idx as usize).copied().and_then(|x| x)` of
`src/main.rs`: a negative `i32` cast to `usize` becomes a huge index, so
`get` yields `None` for it. -/
def arrayLookup (idx : Int) : Option Nat :=
  if idx < 0 then none
  else
    match DECODING_ARRAY.get? idx.toNat with
    | some (some b) => some b
    | _ => none

/-- The flat-array `decode_character` of `src/main.rs` (identical in
`benches/decode.rs`): offset plus the magic number 62, then array lookup,
empty slot or out of range reported as `Error.Decode` of the input token. -/
def decode_character (character : List Char) : Except Error Nat :=
  match arrayLookup (uncorrected_offset character + 62) with
  | some b => Except.ok b
  | none => Except.error (Error.Decode character)

/-- The association built by `CharacterDecoder::new` in `benches/decode.rs`:
the first 26 codes paired with A-Z, the last 10 with 0-9 (symbols as ASCII
byte values). -/
def CharacterDecoder_map : List (List Char × Nat) :=
  (ENCODED_SEQUENCES.take 26).zip
      (("ABCDEFGHIJKLMNOPQRSTUVWXYZ".toList).map Char.toNat)
    ++ (ENCODED_SEQUENCES.drop 26).zip (("0123456789".toList).map Char.toNat)

/-- The `CharacterDecoder::decode` method of `benches/decode.rs`: a key
lookup in the associative table, a miss reported as `Error.Decode`. -/
def CharacterDecoder_decode (character : List Char) : Except Error Nat :=
  match CharacterDecoder_map.lookup character with
  | some b => Except.ok b
  | none => Except.error (Error.Decode character)

/-- The `character_index` fold of `benches/decode.rs`: a dot moves to the
left child `2i+1`, a dash to the right child `2i+2`, any other byte leaves
the index unchanged. -/
def character_index (character : List Char) : Int :=
  character.foldl
    (fun idx u =>
      if u = '.' then idx * 2 + 1
      else if u = '-' then idx * 2 + 2
      else idx)
    0

/-- The loop of `encode_message` over the bytes after the first one: a space
becomes the token `" /"`, any other byte becomes a space followed by its
code; the first failing byte aborts with its error (outer `Option` = panic,
as in `encode_byte`). -/
def encodeRest : List Char → Option (Except Error (List Char))
  | [] => some (Except.ok [])
  | u :: rest =>
      if u = ' ' then
        (encodeRest rest).map (Except.map (fun l => ' ' :: '/' :: l))
      else
        match encode_byte u.toNat with
        | none => none
        | some (Except.error e) => some (Except.error e)
        | some (Except.ok code) =>
            (encodeRest rest).map (Except.map (fun l => ' ' :: (code ++ l)))

/-- The `encode_message` function of `src/main.rs`: the first byte is
encoded unconditionally (a leading space is an encode error), the remaining
bytes by `encodeRest`. -/
def encode_message : List Char → Option (Except Error (List Char))
  | [] => some (Except.ok [])
  | u :: rest =>
      match encode_byte u.toNat with
      | none => none
      | some (Except.error e) => some (Except.error e)
      | some (Except.ok code) =>
          (encodeRest rest).map (Except.map (fun l => code ++ l))

/-- Rust `char::is_whitespace`, restricted to the ASCII range (space and
the control characters 0x09-0x0D), which covers every input of interest. -/
def isRustWhitespace (c : Char) : Bool :=
  c = ' ' || (9 ≤ c.toNat && c.toNat ≤ 13)

/-- Rust `str::trim`: whitespace stripped from both ends. -/
def strTrim (s : List Char) : List Char :=
  ((s.dropWhile isRustWhitespace).reverse.dropWhile isRustWhitespace).reverse

/-- The encode path of `run` in `src/main.rs`: trim the raw input, keep only
spaces and ASCII alphanumerics, then call `encode_message`. -/
def encode_pipeline (message : List Char) : Option (Except Error (List Char)) :=
  encode_message
    ((strTrim message).filter (fun c => c = ' ' || isAsciiAlphanumeric c.toNat))

/-- Rust `str::split('/')`: pieces between slashes, empty pieces included. -/
def splitSlash : List Char → List (List Char)
  | [] => [[]]
  | c :: rest =>
      if c = '/' then [] :: splitSlash rest
      else
        match splitSlash rest with
        | w :: ws => (c :: w) :: ws
        | [] => [[c]]

/-- Helper for `splitWhitespace`: accumulates the current token (reversed). -/
def splitWsGo : List Char → List Char → List (List Char)
  | [], acc => if acc.isEmpty then [] else [acc.reverse]
  | c :: rest, acc =>
      if isRustWhitespace c then
        if acc.isEmpty then splitWsGo rest []
        else acc.reverse :: splitWsGo rest []
      else splitWsGo rest (c :: acc)

/-- Rust `str::split_whitespace`: maximal runs of non-whitespace characters,
no empty tokens. -/
def splitWhitespace (s : List Char) : List (List Char) :=
  splitWsGo s []

/-- The token loop of `decode_word_into` in `src/main.rs`: each token is
decoded by `decode_character` and its byte pushed as a character; the first
invalid token aborts with its error. -/
def decodeTokens : List (List Char) → Except Error (List Char)
  | [] => Except.ok []
  | t :: ts =>
      match decode_character t with
      | Except.error e => Except.error e
      | Except.ok b =>
          match decodeTokens ts with
          | Except.error e => Except.error e
          | Except.ok r => Except.ok (Char.ofNat b :: r)

/-- The `decode_word_into` function of `src/main.rs`, returning the decoded
characters it appends to the buffer. -/
def decode_word (word : List Char) : Except Error (List Char) :=
  decodeTokens (splitWhitespace word)

/-- The loop of `decode_message` over the words after the first one: each
word is preceded by one space in the output. -/
def decodeRest : List (List Char) → Except Error (List Char)
  | [] => Except.ok []
  | w :: ws =>
      match decode_word w with
      | Except.error e => Except.error e
      | Except.ok dw =>
          match decodeRest ws with
          | Except.error e => Except.error e
          | Except.ok r => Except.ok (' ' :: (dw ++ r))

/-- The `decode_message` function of `src/main.rs`: split on slashes, decode
the first word, then each further word with a space pushed before it. -/
def decode_message (message : List Char) : Except Error (List Char) :=
  match splitSlash message with
  | [] => Except.ok []
  | w :: ws =>
      match decode_word w with
      | Except.error e => Except.error e
      | Except.ok dw => (decodeRest ws).map (fun r => dw ++ r)

/-! Helper notions for the verification. -/

/-- A string made only of the two marks dot and dash. -/
def marksOnly (s : List Char) : Bool :=
  s.all (fun c => c == '.' || c == '-')

/-- All marks-only strings of length at most `n`. -/
def allMarks : Nat → List (List Char)
  | 0 => [[]]
  | n + 1 => [] :: (allMarks n).flatMap (fun s => ['.' :: s, '-' :: s])

end Morse

deriving instance DecidableEq for Except

namespace Morse

theorem mem_allMarks : ∀ (n : Nat) (s : List Char), marksOnly s = true →
    s.length ≤ n → s ∈ allMarks n := by
  intro n
  induction n with
  | zero =>
    intro s _ hlen
    have hs : s = [] := List.eq_nil_of_length_eq_zero (Nat.le_zero.mp hlen)
    simp [hs, allMarks]
  | succ m ih =>
    intro s hm hlen
    cases s with
    | nil => simp [allMarks]
    | cons c rest =>
      have hc : (c == '.' || c == '-') = true ∧ marksOnly rest = true := by
        simpa [marksOnly] using hm
      have hrest : rest ∈ allMarks m :=
        ih rest hc.2 (by simp at hlen; omega)
      have : c :: rest ∈ (allMarks m).flatMap (fun s => ['.' :: s, '-' :: s]) := by
        refine List.mem_flatMap.mpr ⟨rest, hrest, ?_⟩
        have hor : c = '.' ∨ c = '-' := by simpa using hc.1
        rcases hor with h | h
        · simp [h]
        · simp [h]
      simp [allMarks, this]

theorem uoGo_zero : ∀ (s : List Char) (offset : Int), uoGo s offset 0 = offset := by
  intro s
  induction s with
  | nil => intro _; rfl
  | cons c rest ih =>
    intro offset
    simp only [uoGo]
    have h2 : (0 : Int) / 2 = 0 := rfl
    rw [h2]
    split
    · simpa using ih offset
    · split
      · simpa using ih offset
      · exact ih offset

theorem uoGo_parity : ∀ (k : Nat) (s : List Char) (offset : Int),
    marksOnly s = true → k + 1 ≤ s.length →
    uoGo s offset (2 ^ k) % 2 = (offset + 1) % 2 := by
  intro k
  induction k with
  | zero =>
    intro s offset hm hlen
    cases s with
    | nil => simp at hlen
    | cons c rest =>
      have hc : (c == '.' || c == '-') = true ∧ marksOnly rest = true := by
        simpa [marksOnly] using hm
      have h1 : (2 : Int) ^ 0 = 1 := rfl
      have hdiv : (1 : Int) / 2 = 0 := rfl
      have hor : c = '.' ∨ c = '-' := by simpa using hc.1
      rw [h1]
      rcases hor with h | h
      · subst h
        have e : uoGo ('.' :: rest) offset 1 = uoGo rest (offset + 1) 0 := by
          simp [uoGo, (by decide : (1 : Int) / 2 = 0)]
        rw [e, uoGo_zero]
      · subst h
        have e : uoGo ('-' :: rest) offset 1 = uoGo rest (offset - 1) 0 := by
          simp [uoGo, (by decide : (1 : Int) / 2 = 0)]
        rw [e, uoGo_zero]
        omega
  | succ m ih =>
    intro s offset hm hlen
    cases s with
    | nil => simp at hlen
    | cons c rest =>
      have hc : (c == '.' || c == '-') = true ∧ marksOnly rest = true := by
        simpa [marksOnly] using hm
      have hlen' : m + 1 ≤ rest.length := by simpa using hlen
      have hpow : (2 : Int) ^ (m + 1) = 2 ^ m * 2 := by ring
      have hdiv : (2 : Int) ^ (m + 1) / 2 = 2 ^ m := by
        rw [hpow]; exact Int.mul_ediv_cancel _ two_ne_zero
      have heven : (2 : Int) ^ (m + 1) % 2 = 0 := by
        rw [hpow]; omega
      have hor : c = '.' ∨ c = '-' := by simpa using hc.1
      rcases hor with h | h
      · subst h
        have e : uoGo ('.' :: rest) offset (2 ^ (m + 1))
            = uoGo rest (offset + 2 ^ (m + 1)) (2 ^ (m + 1) / 2) := by
          simp [uoGo]
        rw [e, hdiv, ih rest _ hc.2 hlen']
        omega
      · subst h
        have e : uoGo ('-' :: rest) offset (2 ^ (m + 1))
            = uoGo rest (offset - 2 ^ (m + 1)) (2 ^ (m + 1) / 2) := by
          simp [uoGo]
        rw [e, hdiv, ih rest _ hc.2 hlen']
        omega

theorem odd_slots_none : ∀ i, i < 125 → i % 2 = 1 →
    DECODING_ARRAY.get? i = some none := by decide

theorem decoding_array_length : DECODING_ARRAY.length = 125 := by decide

theorem arrayLookup_odd (idx : Int) (h : idx % 2 = 1) : arrayLookup idx = none := by
  unfold arrayLookup
  split
  · rfl
  · rename_i hnonneg
    have hodd : idx.toNat % 2 = 1 := by omega
    by_cases h125 : idx.toNat < 125
    · rw [odd_slots_none idx.toNat h125 hodd]
    · have hget : DECODING_ARRAY.get? idx.toNat = none := by
        rw [List.get?_eq_none, decoding_array_length]
        omega
      rw [hget]

theorem lookup_len_le (l : List (List Char × Nat))
    (hl : ∀ p ∈ l, p.1.length ≤ 5) (s : List Char) (hs : 6 ≤ s.length) :
    l.lookup s = none := by
  induction l with
  | nil => rfl
  | cons p rest ih =>
    obtain ⟨k, v⟩ := p
    rw [List.lookup]
    cases hbeq : s == k with
    | true =>
      exfalso
      have hk := hl (k, v) (List.mem_cons_self _ _)
      have : s = k := eq_of_beq hbeq
      subst this
      simp at hk
      omega
    | false =>
      exact ih (fun q hq => hl q (List.mem_cons_of_mem _ hq))

theorem map_keys_short : ∀ p ∈ CharacterDecoder_map, p.1.length ≤ 5 := by decide

theorem uoGo_append_foreign (u : Char) (hu1 : u ≠ '.') (hu2 : u ≠ '-') :
    ∀ (s : List Char) (offset inc : Int),
      uoGo (s ++ [u]) offset inc = uoGo s offset inc := by
  intro s
  induction s with
  | nil =>
    intro offset inc
    simp [uoGo, hu1, hu2]
  | cons c rest ih =>
    intro offset inc
    simp only [List.cons_append, uoGo]
    exact ih _ _

/-! The claim theorems. -/

/-- C1: for every ASCII letter (either case) and every ASCII digit, decoding
the code produced by encoding the byte yields the uppercase form of the
byte. -/
theorem encode_then_decode_gives_uppercase :
    ∀ u : Nat, u < 256 → isAsciiAlphanumeric u = true →
      (encode_byte u).map (fun r => r.bind decode_character)
        = some (Except.ok (toAsciiUppercase u)) := by decide

/-- Witness for C1 at the lowercase letter a (byte 97): its code decodes to
the uppercase A (byte 65). -/
theorem encode_then_decode_gives_uppercase_witness :
    (encode_byte 97).map (fun r => r.bind decode_character)
      = some (Except.ok 65) :=
  encode_then_decode_gives_uppercase 97 (by decide) (by decide)

/-- C2 counterexample: the codes of E (one dot) and of I (two dots) are both
in the table and distinct, and the first begins the second, so the table is
not free of codes that begin other codes. -/
theorem code_table_has_nested_pair :
    (".".toList) ∈ ENCODED_SEQUENCES ∧ ("..".toList) ∈ ENCODED_SEQUENCES ∧
      (".".toList) ≠ ("..".toList) ∧ (".".toList) <+: ("..".toList) :=
  ⟨by decide, by decide, by decide, ⟨['.'], by decide⟩⟩

/-- C2 amended: the 36 codes in the table are pairwise distinct (but the
table is not free of codes that begin other codes: the code of E begins the
code of I). -/
theorem codes_pairwise_distinct : ENCODED_SEQUENCES.Nodup := by decide

/-- C3 counterexample: the string dash-x contains the byte x, which is
neither dot nor dash, yet `decode_character` accepts the string and returns
the symbol T (byte 84) instead of an `InvalidCode` error. -/
theorem decode_accepts_foreign_byte :
    ('x' ∈ ("-x".toList) ∧ 'x' ≠ '.' ∧ 'x' ≠ '-') ∧
      decode_character ("-x".toList) = Except.ok 84 := by decide

/-- C3 amended: the flat-array decoder does not reject every string with a
byte outside dot/dash; such a byte is skipped by the offset fold (it only
consumes one halving of the increment), so appending it to a token that
decodes successfully still decodes to the same symbol instead of failing. -/
theorem decode_append_foreign_preserves_ok (s : List Char) (u : Char)
    (b : Nat) (hu1 : u ≠ '.') (hu2 : u ≠ '-')
    (h : decode_character s = Except.ok b) :
    decode_character (s ++ [u]) = Except.ok b := by
  have hoff : uncorrected_offset (s ++ [u]) = uncorrected_offset s :=
    uoGo_append_foreign u hu1 hu2 s 0 32
  unfold decode_character at h ⊢
  rw [hoff]
  cases hl : arrayLookup (uncorrected_offset s + 62) with
  | some v =>
      rw [hl] at h
      exact h
  | none =>
      rw [hl] at h
      exact Except.noConfusion
        (show Except.error (Error.Decode s) = Except.ok b from h)

/-- Witness for C3 amended at the token dash followed by x. -/
theorem decode_append_foreign_witness :
    decode_character ("-".toList ++ ['x']) = Except.ok 84 :=
  decode_append_foreign_preserves_ok ("-".toList) 'x' 84 (by decide)
    (by decide) (by decide)

/-- C4: for every dot/dash string of length 1 to 5 the tree index computed
by `character_index` lies in the interval 0..62, and no two distinct codes
of the table receive the same index. -/
theorem character_index_bounds_and_injective :
    (∀ s : List Char, marksOnly s = true → 1 ≤ s.length → s.length ≤ 5 →
        0 ≤ character_index s ∧ character_index s ≤ 62) ∧
      ∀ s t : List Char, s ∈ ENCODED_SEQUENCES → t ∈ ENCODED_SEQUENCES →
        character_index s = character_index t → s = t := by
  constructor
  · intro s hm _ hlen
    have hmem := mem_allMarks 5 s hm hlen
    have hall : ∀ x ∈ allMarks 5,
        0 ≤ character_index x ∧ character_index x ≤ 62 := by decide
    exact hall s hmem
  · have hnodup : (ENCODED_SEQUENCES.map character_index).Nodup := by decide
    intro s t hs ht heq
    exact List.inj_on_of_nodup_map hnodup hs ht heq

/-- Witness for C4 at the code of A (dot dash). -/
theorem character_index_bounds_witness :
    0 ≤ character_index (".-".toList) ∧ character_index (".-".toList) ≤ 62 :=
  character_index_bounds_and_injective.1 (".-".toList) (by decide) (by decide)
    (by decide)

/-- C5: single-code decoding rejects the empty string, a string of six
marks, and the string x, each with the `Decode` error carrying the offending
token. -/
theorem decode_rejects_invalid_tokens :
    decode_character ("".toList) = Except.error (Error.Decode ("".toList)) ∧
      decode_character ("......".toList)
        = Except.error (Error.Decode ("......".toList)) ∧
      decode_character ("x".toList)
        = Except.error (Error.Decode ("x".toList)) := by decide

/-- C6 counterexample: the string dot-x is not one of the 36 codes; the
associative-map decoder rejects it, but the flat-array decoder accepts it
and returns E (byte 69), so the two strategies are not equivalent on all
strings. -/
theorem decoders_differ_on_foreign_byte :
    (".x".toList) ∉ ENCODED_SEQUENCES ∧
      CharacterDecoder_decode (".x".toList)
        = Except.error (Error.Decode (".x".toList)) ∧
      decode_character (".x".toList) = Except.ok 69 := by decide

/-- C6 amended: the two decode strategies agree on every string over
dot/dash, returning the same symbol for each of the 36 codes and the same
`InvalidCode` error for every other marks-only string; they can differ only
on strings containing a foreign byte. -/
theorem decoders_agree_on_mark_strings (s : List Char)
    (h : marksOnly s = true) :
    CharacterDecoder_decode s = decode_character s := by
  by_cases hlen : s.length ≤ 5
  · have hmem := mem_allMarks 5 s h hlen
    have hall : ∀ x ∈ allMarks 5,
        CharacterDecoder_decode x = decode_character x := by decide
    exact hall s hmem
  · have h6 : 6 ≤ s.length := by omega
    have h1 : CharacterDecoder_map.lookup s = none :=
      lookup_len_le CharacterDecoder_map map_keys_short s h6
    have h2 : uncorrected_offset s % 2 = 1 := by
      have h25 : (2 : Int) ^ 5 = 32 := by norm_num
      have hp := uoGo_parity 5 s 0 h (by omega)
      rw [h25] at hp
      simpa [uncorrected_offset] using hp
    have h3 : arrayLookup (uncorrected_offset s + 62) = none :=
      arrayLookup_odd _ (by omega)
    unfold CharacterDecoder_decode decode_character
    rw [h1, h3]

/-- Witness for C6 amended at the marks-only string of three dashes. -/
theorem decoders_agree_witness :
    CharacterDecoder_decode ("---".toList) = decode_character ("---".toList) :=
  decoders_agree_on_mark_strings ("---".toList) (by decide)

/-- C7 counterexample: `encode_message` itself does not filter punctuation;
applied directly to the text it fails on the comma with an `Encode` error. -/
theorem encode_message_errors_on_comma :
    encode_message ("abc, 123!".toList)
      = some (Except.error (Error.Encode ',')) := by decide

/-- C7 amended: the filtering to spaces and ASCII alphanumerics happens in
the caller (`run`), not in `encode_message`; the encode pipeline of `run`
silently drops the punctuation, giving the same result as encoding the bare
text. -/
theorem pipeline_drops_punctuation :
    encode_pipeline ("abc, 123!".toList)
      = encode_message ("abc 123".toList) := by decide

/-- C8: encoding the text Hello World joins codes with single spaces and
marks the word boundary with the slash token glued to the preceding code. -/
theorem encode_hello_world :
    encode_message ("Hello World".toList)
      = some (Except.ok
          ((".... . .-.. .-.. --- / .-- --- .-. .-.. -..").toList)) := by
  decide

/-- C9: decoding the code text of Hello World splits on the slash and on
whitespace runs, decodes each token and joins the words with one space. -/
theorem decode_hello_world :
    decode_message ((".... . .-.. .-.. --- / .-- --- .-. .-.. -..").toList)
      = Except.ok ("HELLO WORLD".toList) := by decide

/-- C10: `encode_byte` never panics for any byte: its unchecked indexing
into the 36-entry table is always in bounds. -/
theorem encode_byte_never_panics :
    ∀ u : Nat, u < 256 → (encode_byte u).isSome = true := by decide

/-- Witness for C10 at the byte of A (65). -/
theorem encode_byte_never_panics_witness : (encode_byte 65).isSome = true :=
  encode_byte_never_panics 65 (by decide)

end Morse
